import Mathlib

/-!
Verification development for the deployment-planner core of the
blueforge-agent-gcp repository.

The definitions below are a shallow embedding of the JavaScript source:

* `getDiffObj`, `getDiffArr`, `getDiffs` — the diff engine
  (src/unnamed/part_001, lines 223-300);
* `expandResourceUpdates`, `buildDependenciesIndex`, `buildDependentsIndex`,
  `isReady` — the dependency index builder (lines 314-431);
* `buildResourceDeployWaves`, `buildResourceDestroyWaves` — the wave
  scheduler (lines 457-548);
* `getSteps` — the plan assembler (lines 571-719);
* `updateState`, `updateStatus` — the execution state tracker
  (src/unnamed/part_002, lines 469-502 and 696-715).

JavaScript objects are modelled as association lists in insertion order
(`Obj`); property access is first-match lookup.  String truthiness
(`if (x)` on a string) is modelled by `truthyStr`: the empty string and an
absent value are falsy.  Exceptions are modelled with `Except`: `JsError`
distinguishes an `Error` built with a message from the `ReferenceError`
that evaluating an undefined variable raises.
-/

/-- A JavaScript object with string keys, in insertion order. -/
abbrev Obj (α : Type) := List (String × α)

/-- JS property read `o[k]`: the value of the first entry with key `k`. -/
def objLookup {α : Type} : Obj α → String → Option α
  | [], _ => none
  | (k', v) :: rest, k => if k' = k then some v else objLookup rest k

/-- The keys of an object, in insertion order (JS `Object.keys`). -/
def objKeys {α : Type} (o : Obj α) : List String := o.map Prod.fst

/-- JS `Set.add` on a list kept in insertion order. -/
def setAdd (l : List String) (x : String) : List String :=
  if l.contains x then l else l ++ [x]

/-- JS string truthiness for an optional string: `null`/`undefined` and the
empty string are falsy; a non-empty string is kept. -/
def truthyStr : Option String → Option String
  | none => none
  | some s => if s = "" then none else some s

/-- One entry of a resource's `dependencies` mapping: `{resourceId, output}`
(src/unnamed/part_001, data reaching `buildDependenciesIndex` etc.). -/
structure Dependency where
  resourceId : Option String
  output : Bool
deriving DecidableEq, Repr

/-- A resource of an architecture: its `service` reference and its
`dependencies` mapping (dependency name, entry). -/
structure Resource where
  service : Option String
  dependencies : Obj Dependency
deriving DecidableEq, Repr

/-- An architecture snapshot.  `ids` and `accounts` are used only through
`Object.keys`, so only their key lists are kept; service and layer
definitions are opaque values compared by deep equality. -/
structure Architecture where
  ids : List String
  accounts : List String
  services : Obj String
  layers : Obj String
  resources : Obj Resource
deriving DecidableEq, Repr

/-- The result of `getDiffObj`: the `'+'`, `'-'` and `'~'` key lists. -/
structure DiffObj where
  added : List String
  removed : List String
  changed : List String
deriving DecidableEq, Repr

/-- The result of `getDiffArr`: the `'+'` and `'-'` value lists. -/
structure DiffArr where
  added : List String
  removed : List String
deriving DecidableEq, Repr

/-- src/unnamed/part_001, lines 223-235: key diff of two objects.  `'+'` keys
only in `next`, `'-'` keys only in `prev`, `'~'` common keys whose values are
not deep-equal (`fast-deep-equal` is structural equality). -/
def getDiffObj {α : Type} [DecidableEq α] (prev next : Obj α) : DiffObj :=
  let kprev := objKeys prev
  let knext := objKeys next
  { added := knext.filter (fun k => !kprev.contains k)
    removed := kprev.filter (fun k => !knext.contains k)
    changed := (knext.filter (fun k => kprev.contains k)).filter
      (fun k => !decide (objLookup prev k = objLookup next k)) }

/-- src/unnamed/part_001, lines 249-256: value diff of two arrays. -/
def getDiffArr (prev next : List String) : DiffArr :=
  { added := next.filter (fun k => !prev.contains k)
    removed := prev.filter (fun k => !next.contains k) }

/-- src/unnamed/part_001, lines 282-285: a resource id's module id, taken by
truncating just after the last `'/'`; `'/'` itself when there is none. -/
def lastSlashIdx : List Char → Option Nat
  | [] => none
  | c :: rest =>
    match lastSlashIdx rest with
    | some i => some (i + 1)
    | none => if c = '/' then some 0 else none

/-- `resourceId.lastIndexOf('/')` then `slice(0, index + 1)`, `'/'` when the
separator does not occur. -/
def modulePathOf (resourceId : String) : String :=
  match lastSlashIdx resourceId.toList with
  | none => "/"
  | some i => String.mk (resourceId.toList.take (i + 1))

/-- src/unnamed/part_001, lines 280-287: the de-duplicated module ids derived
from the target's resource ids (JS `[...new Set(...)]`). -/
def targetModuleIds (target : Architecture) : List String :=
  ((objKeys target.resources).map modulePathOf).foldl setAdd []

/-- The per-category diffs returned by `getDiffs` (lines 271-300). -/
structure Diffs where
  diffIds : DiffArr
  diffAccounts : DiffArr
  diffServices : DiffObj
  diffLayers : DiffObj
  diffResources : DiffObj
deriving DecidableEq, Repr

/-- src/unnamed/part_001, lines 271-300: diff of current state against the
target, category by category.  The universe compared for `ids` and
`accounts` is the derived module ids followed by the resource ids. -/
def getDiffs (state target : Architecture) : Diffs :=
  let targetResourceAndModuleIds :=
    targetModuleIds target ++ objKeys target.resources
  { diffIds := getDiffArr state.ids targetResourceAndModuleIds
    diffAccounts := getDiffArr state.accounts targetResourceAndModuleIds
    diffServices := getDiffObj state.services target.services
    diffLayers := getDiffObj state.layers target.layers
    diffResources := getDiffObj state.resources target.resources }

/-- Append `v` to the map entry of `k`, creating the entry if missing: the
`dependents.get(dep.resourceId).push(resourceId)` of lines 328-331 (a plain
push, no de-duplication). -/
def mapAdd (m : Obj (List String)) (k v : String) : Obj (List String) :=
  match m with
  | [] => [(k, [v])]
  | (k', l) :: rest =>
    if k' = k then (k', l ++ [v]) :: rest else (k', l) :: mapAdd rest k v

/-- src/unnamed/part_001, lines 322-333: the reverse dependency map used by
the expansion, collecting only entries with a truthy `output` AND a truthy
`resourceId` (`dep?.output && dep.resourceId`). -/
def expAddResource (rid : String) : Obj Dependency → Obj (List String) → Obj (List String)
  | [], m => m
  | d :: deps, m =>
    expAddResource rid deps
      (if d.2.output then
        match truthyStr d.2.resourceId with
        | some depId => mapAdd m depId rid
        | none => m
      else m)

def expDependentsMapGo : Obj Resource → Obj (List String) → Obj (List String)
  | [], m => m
  | e :: rest, m => expDependentsMapGo rest (expAddResource e.1 e.2.dependencies m)

def expDependentsMap (target : Architecture) : Obj (List String) :=
  expDependentsMapGo target.resources []

/-- The dependents of one id in the expansion map
(`dependents.get(current)`, `undefined` read as no children). -/
def childrenOf (m : Obj (List String)) (id : String) : List String :=
  (objLookup m id).getD []

/-- src/unnamed/part_001, lines 341-346: the inner `for child of children`
loop.  A child not yet in `toHandle` is added to it and pushed on the stack
(the stack's head is the JS array's top, its last element). -/
def addChildren (toHandle stack : List String) :
    List String → List String × List String
  | [] => (toHandle, stack)
  | c :: cs =>
    if toHandle.contains c then addChildren toHandle stack cs
    else addChildren (toHandle ++ [c]) (c :: stack) cs

/-- All values held by an expansion map, the universe new ids may come from. -/
def mapVals (m : Obj (List String)) : List String :=
  (m.map Prod.snd).flatten

/-- How many entries of `univ` are not yet in `toHandle`; the termination
measure of the work-list traversal. -/
def missingCount (univ toHandle : List String) : Nat :=
  (univ.filter (fun v => !toHandle.contains v)).length

theorem length_filter_mono {α : Type} {p q : α → Bool}
    (h : ∀ a, p a = true → q a = true) (l : List α) :
    (l.filter p).length ≤ (l.filter q).length := by
  induction l with
  | nil => simp
  | cons x xs ih =>
    by_cases hp : p x
    · simp [List.filter_cons, hp, h x hp, Nat.succ_le_succ ih]
    · simp only [Bool.not_eq_true] at hp
      by_cases hq : q x
      · simp [List.filter_cons, hp, hq]
        exact le_trans ih (Nat.le_succ _)
      · simp only [Bool.not_eq_true] at hq
        simpa [List.filter_cons, hp, hq] using ih

theorem length_filter_strict_mono {α : Type} {p q : α → Bool}
    (h : ∀ a, p a = true → q a = true) {l : List α} {a : α}
    (ha : a ∈ l) (hqa : q a = true) (hpa : p a = false) :
    (l.filter p).length < (l.filter q).length := by
  induction l with
  | nil => cases ha
  | cons x xs ih =>
    rcases List.mem_cons.mp ha with rfl | hx
    · simp [List.filter_cons, hpa, hqa]
      exact Nat.lt_succ_of_le (length_filter_mono h xs)
    · by_cases hp : p x
      · simpa [List.filter_cons, hp, h x hp] using Nat.succ_lt_succ (ih hx)
      · simp only [Bool.not_eq_true] at hp
        by_cases hq : q x
        · simp [List.filter_cons, hp, hq]
          exact Nat.lt_succ_of_lt (ih hx)
        · simp only [Bool.not_eq_true] at hq
          simpa [List.filter_cons, hp, hq] using ih hx

theorem missingCount_append_le (univ t : List String) (c : String) :
    missingCount univ (t ++ [c]) ≤ missingCount univ t := by
  unfold missingCount
  apply length_filter_mono
  intro v hv
  have hv' : v ∉ t ++ [c] := by simpa using hv
  simpa using fun hm => hv' (List.mem_append.mpr (Or.inl hm))

theorem missingCount_append_lt {univ t : List String} {c : String}
    (hc : c ∈ univ) (hnew : ¬ c ∈ t) :
    missingCount univ (t ++ [c]) < missingCount univ t := by
  unfold missingCount
  exact length_filter_strict_mono
    (fun v hv => by
      have hv' : v ∉ t ++ [c] := by simpa using hv
      simpa using fun hm => hv' (List.mem_append.mpr (Or.inl hm)))
    hc (by simpa using hnew) (by simp)

theorem addChildren_skip {t s : List String} {c : String} (cs : List String)
    (hc : c ∈ t) : addChildren t s (c :: cs) = addChildren t s cs := by
  simp [addChildren, hc]

theorem addChildren_push {t s : List String} {c : String} (cs : List String)
    (hc : ¬ c ∈ t) :
    addChildren t s (c :: cs) = addChildren (t ++ [c]) (c :: s) cs := by
  simp [addChildren, hc]

theorem addChildren_measure {univ : List String} :
    ∀ (cs t s : List String), (∀ c ∈ cs, c ∈ univ) →
    (addChildren t s cs).2.length + missingCount univ (addChildren t s cs).1 ≤
      s.length + missingCount univ t := by
  intro cs
  induction cs with
  | nil => intro t s _; simp [addChildren]
  | cons c cs ih =>
    intro t s hsub
    by_cases hc : c ∈ t
    · rw [addChildren_skip cs hc]
      exact ih t s (fun x hx => hsub x (by simp [hx]))
    · rw [addChildren_push cs hc]
      have h1 := ih (t ++ [c]) (c :: s) (fun x hx => hsub x (by simp [hx]))
      have h2 : missingCount univ (t ++ [c]) < missingCount univ t :=
        missingCount_append_lt (hsub c (by simp)) hc
      simp only [List.length_cons] at h1
      omega

theorem addChildren_missing_le {univ : List String} :
    ∀ (cs t s : List String),
    missingCount univ (addChildren t s cs).1 ≤ missingCount univ t := by
  intro cs
  induction cs with
  | nil => intro t s; simp [addChildren]
  | cons c cs ih =>
    intro t s
    by_cases hc : c ∈ t
    · rw [addChildren_skip cs hc]; exact ih t s
    · rw [addChildren_push cs hc]
      exact le_trans (ih (t ++ [c]) (c :: s)) (missingCount_append_le univ t c)

theorem childrenOf_sub_mapVals (m : Obj (List String)) (id : String) :
    ∀ c ∈ childrenOf m id, c ∈ mapVals m := by
  intro c hc
  unfold childrenOf at hc
  unfold mapVals
  induction m with
  | nil => simp [objLookup] at hc
  | cons e rest ih =>
    simp only [objLookup] at hc
    by_cases h : e.1 = id
    · rw [if_pos h] at hc
      simp only [Option.getD_some] at hc
      simp only [List.map_cons, List.flatten_cons, List.mem_append]
      exact Or.inl hc
    · rw [if_neg h] at hc
      simp only [List.map_cons, List.flatten_cons, List.mem_append]
      exact Or.inr (ih hc)

/-- src/unnamed/part_001, lines 336-347: the work-list traversal of
transitive dependents.  `stack` is the JS array reversed: its head is the
element `pop()` removes. -/
def expandLoop (m : Obj (List String)) :
    List String → List String → List String
  | toHandle, [] => toHandle
  | toHandle, current :: stack =>
    let p := addChildren toHandle stack (childrenOf m current)
    expandLoop m p.1 p.2
termination_by toHandle stack => 2 * missingCount (mapVals m) toHandle + stack.length
decreasing_by
  have h1 := @addChildren_measure (mapVals m) (childrenOf m current)
    toHandle stack (childrenOf_sub_mapVals m current)
  have h2 := @addChildren_missing_le (mapVals m) (childrenOf m current)
    toHandle stack
  simp only [List.length_cons]
  omega

/-- src/unnamed/part_001, lines 314-350: the set of resources to (re)apply —
the added and changed ids, closed under the reverse dependency relation of
output-consuming edges, in insertion order. -/
def expandResourceUpdates (target : Architecture) (diffResources : DiffObj) :
    List String :=
  let toHandle := (diffResources.added ++ diffResources.changed).foldl setAdd []
  expandLoop (expDependentsMap target) toHandle toHandle.reverse

/-- The de-duplicating push of lines 369-374 (`if (!list.includes(depId))
list.push(depId)`). -/
def collectDeps : Obj Dependency → List String → List String
  | [], acc => acc
  | d :: rest, acc =>
    match truthyStr d.2.resourceId with
    | none => collectDeps rest acc
    | some depId =>
      collectDeps rest (if acc.contains depId then acc else acc ++ [depId])

/-- src/unnamed/part_001, lines 359-380: the forward dependency index built
from the target — for each resource, the unique truthy `resourceId`s of its
dependency entries, whatever their `output` flag. -/
def buildDependenciesIndex (target : Architecture) : Obj (List String) :=
  buildDepsIdxAux target.resources
where
  buildDepsIdxAux : Obj Resource → Obj (List String)
    | [] => []
    | (rid, r) :: rest => (rid, collectDeps r.dependencies []) :: buildDepsIdxAux rest

/-- The de-duplicating insert of lines 404-405. -/
def indexAdd (idx : Obj (List String)) (depId rid : String) : Obj (List String) :=
  match idx with
  | [] => [(depId, [rid])]
  | (k, l) :: rest =>
    if k = depId then (k, if l.contains rid then l else l ++ [rid]) :: rest
    else (k, l) :: indexAdd rest depId rid

/-- The inner loop of `buildDependentsIndex` over one resource's entries. -/
def addDependents (rid : String) : Obj Dependency → Obj (List String) → Obj (List String)
  | [], idx => idx
  | d :: deps, idx =>
    match truthyStr d.2.resourceId with
    | none => addDependents rid deps idx
    | some depId => addDependents rid deps (indexAdd idx depId rid)

/-- src/unnamed/part_001, lines 388-409: the reverse dependency index built
from the current state — for each truthy dependency target, the resources
depending on it, whatever the `output` flag. -/
def buildDependentsIndexGo : Obj Resource → Obj (List String) → Obj (List String)
  | [], idx => idx
  | e :: rest, idx => buildDependentsIndexGo rest (addDependents e.1 e.2.dependencies idx)

def buildDependentsIndex (state : Architecture) : Obj (List String) :=
  buildDependentsIndexGo state.resources []

/-- The adjacency an index records for one id (`index[resourceId]`, an
absent entry read as no constraints). -/
def depsOf (idx : Obj (List String)) (id : String) : List String :=
  (objLookup idx id).getD []

/-- src/unnamed/part_001, lines 425-431: a resource is ready when no truthy
entry of its index adjacency is still pending. -/
def isReady (resourceId : String) (idx : Obj (List String))
    (resourceUpdates : List String) : Bool :=
  match objLookup idx resourceId with
  | none => true
  | some deps => !deps.any (fun depId => !(depId = "" : Bool) && resourceUpdates.contains depId)

/-- The bounded-pass loop shared by lines 467-481 and 524-538: at most `fuel`
passes, each extracting every currently ready id as one wave; a pass that
extracts nothing leaves the pending list for the cap to catch. -/
def wavesLoop (idx : Obj (List String)) :
    Nat → List String → List (List String) × List String
  | 0, pending => ([], pending)
  | fuel + 1, pending =>
    if pending.isEmpty then ([], pending)
    else
      let readyNow := pending.filter (fun id => isReady id idx pending)
      if readyNow.isEmpty then wavesLoop idx fuel pending
      else
        let rest := wavesLoop idx fuel (pending.filter (fun id => !readyNow.contains id))
        (readyNow :: rest.1, rest.2)

/-- A thrown JS error: an `Error` with its message, or the `ReferenceError`
raised by evaluating an undefined variable name. -/
inductive JsError
  | errorMsg (msg : String)
  | referenceError (name : String)
deriving DecidableEq, Repr

/-- src/unnamed/part_001, lines 457-491.  NOTE the deadlock branch of the
source (line 486) interpolates `resourceDeletes.length`, but `resourceDeletes`
is not a variable of this function (it belongs to `buildResourceDestroyWaves`),
so evaluating the message throws `ReferenceError: resourceDeletes is not
defined` instead of the intended cycle `Error`. -/
def buildResourceDeployWaves (target : Architecture) (diffResources : DiffObj) :
    Except JsError (List (List String)) :=
  let idx := buildDependenciesIndex target
  let resourceUpdates := expandResourceUpdates target diffResources
  let r := wavesLoop idx resourceUpdates.length resourceUpdates
  if r.2.isEmpty then .ok r.1
  else .error (.referenceError "resourceDeletes")

/-- src/unnamed/part_001, lines 515-548: destruction waves over the reverse
index; the deadlock branch reports the pass cap and the count (not the
identity) of the resources still pending. -/
def buildResourceDestroyWaves (state : Architecture) (diffResources : DiffObj) :
    Except JsError (List (List String)) :=
  let idx := buildDependentsIndex state
  let resourceDeletes := diffResources.removed
  let r := wavesLoop idx resourceDeletes.length resourceDeletes
  if r.2.isEmpty then .ok r.1
  else .error (.errorMsg ("Max passes reached (" ++ toString resourceDeletes.length ++
    ") with " ++ toString r.2.length ++
    " resources still pending deletion. Possible dependency cycle."))

/-- The step categories of `ActionTypes` (src/unnamed/part_001, lines 196-202). -/
inductive ActionTypes
  | ids
  | accounts
  | services
  | layers
  | resources
deriving DecidableEq, Repr

/-- The actions of `Actions` (lines 204-208). -/
inductive Actions
  | create
  | update
  | delete
deriving DecidableEq, Repr

/-- The `data` payload a step carries: `{}` for id steps, `{service: ...}`
for account steps, and the looked-up definition for the others (`undefined`
when the id is not a key of the consulted category). -/
inductive StepData
  | emptyObj
  | account (service : Option String)
  | svcDef (d : Option String)
  | layerDef (d : Option String)
  | resDef (r : Option Resource)
deriving DecidableEq, Repr

/-- One plan step (lines 591-597 and the analogous step literals). -/
structure Step where
  stepId : String
  type : ActionTypes
  action : Actions
  id : String
  data : StepData
deriving DecidableEq, Repr

/-- `step_${i++}` of line 575. -/
def mkStepId (c : Nat) : String := "step_" ++ toString c

/-- The `ids.map(mapToStep)` of `pushParallel`, threading the step counter. -/
def mapWithCounter (mk : Nat → String → Step) :
    Nat → List String → List Step × Nat
  | c, [] => ([], c)
  | c, id :: rest =>
    let s := mk c id
    let r := mapWithCounter mk (c + 1) rest
    (s :: r.1, r.2)

/-- src/unnamed/part_001, lines 580-583: one parallel wave, omitted when the
id list is empty. -/
def pushParallelW (ids : List String) (mk : Nat → String → Step) (c : Nat) :
    List (List Step) × Nat :=
  if ids.isEmpty then ([], c)
  else
    let r := mapWithCounter mk c ids
    ([r.1], r.2)

/-- src/unnamed/part_001, lines 584-586: one single-step wave per id. -/
def pushSequentialW (mk : Nat → String → Step) :
    Nat → List String → List (List Step) × Nat
  | c, [] => ([], c)
  | c, id :: rest =>
    let r := pushSequentialW mk (c + 1) rest
    ([mk c id] :: r.1, r.2)

/-- Lines 639-649 / 655-665: map each computed resource wave to a wave of
steps, threading the counter. -/
def mapWavesW (mk : Nat → String → Step) :
    Nat → List (List String) → List (List Step) × Nat
  | c, [] => ([], c)
  | c, w :: ws =>
    let r1 := mapWithCounter mk c w
    let r2 := mapWavesW mk r1.2 ws
    (r1.1 :: r2.1, r2.2)

/-- `target.resources[id]?.service || null` (lines 632 and 676): the service
reference of the id's resource when that is a non-empty value, else `null`. -/
def accountServiceOf (arch : Architecture) (id : String) : Option String :=
  match objLookup arch.resources id with
  | some r => truthyStr r.service
  | none => none

/-- The ten pure category sections of the plan assembler (lines 577-714),
taking the two already-computed resource wave lists; the step counter
threads through the sections in the source's order. -/
def assemblePlan (state target : Architecture)
    (deployWaves destroyWaves : List (List String)) : List (List Step) :=
  let d := getDiffs state target
  let s1 := pushParallelW (d.diffServices.added ++ d.diffServices.changed)
    (fun c id => ⟨mkStepId c, .services,
      if d.diffServices.added.contains id then .create else .update,
      id, .svcDef (objLookup target.services id)⟩) 0
  let s2 := pushParallelW (d.diffLayers.added ++ d.diffLayers.changed)
    (fun c id => ⟨mkStepId c, .layers,
      if d.diffLayers.added.contains id then .create else .update,
      id, .layerDef (objLookup target.layers id)⟩) s1.2
  let s3 := pushSequentialW
    (fun c id => ⟨mkStepId c, .ids, .create, id, .emptyObj⟩) s2.2 d.diffIds.added
  let s4 := pushSequentialW
    (fun c id => ⟨mkStepId c, .accounts, .create, id,
      .account (accountServiceOf target id)⟩) s3.2 d.diffAccounts.added
  let s5 := mapWavesW
    (fun c id => ⟨mkStepId c, .resources,
      if d.diffResources.added.contains id then .create else .update,
      id, .resDef (objLookup target.resources id)⟩) s4.2 deployWaves
  let s6 := mapWavesW
    (fun c id => ⟨mkStepId c, .resources, .delete, id,
      .resDef (objLookup state.resources id)⟩) s5.2 destroyWaves
  let s7 := pushParallelW d.diffAccounts.removed
    (fun c id => ⟨mkStepId c, .accounts, .delete, id,
      .account (accountServiceOf state id)⟩) s6.2
  let s8 := pushParallelW d.diffIds.removed
    (fun c id => ⟨mkStepId c, .ids, .delete, id, .emptyObj⟩) s7.2
  let s9 := pushParallelW d.diffLayers.removed
    (fun c id => ⟨mkStepId c, .layers, .delete, id,
      .layerDef (objLookup state.layers id)⟩) s8.2
  let s10 := pushParallelW d.diffServices.removed
    (fun c id => ⟨mkStepId c, .services, .delete, id,
      .svcDef (objLookup state.services id)⟩) s9.2
  s1.1 ++ s2.1 ++ s3.1 ++ s4.1 ++ s5.1 ++ s6.1 ++ s7.1 ++ s8.1 ++ s9.1 ++ s10.1

/-- src/unnamed/part_001, lines 571-719: the plan assembler.  The two wave
computations may throw, which aborts the whole call; otherwise the ten
category sections are emitted in the source's fixed order. -/
def getSteps (state target : Architecture) : Except JsError (List (List Step)) :=
  let d := getDiffs state target
  match buildResourceDeployWaves target d.diffResources with
  | .error e => .error e
  | .ok deployWaves =>
    match buildResourceDestroyWaves state d.diffResources with
    | .error e => .error e
    | .ok destroyWaves => .ok (assemblePlan state target deployWaves destroyWaves)

/-- A destructured argument of a workflow-function payload: absent
(`undefined`), explicit `null`, or a value. -/
inductive Arg (α : Type)
  | absent
  | null
  | val (a : α)
deriving DecidableEq, Repr

/-- Truthiness of a string argument: only a non-empty value is truthy. -/
def argTruthy : Arg String → Option String
  | .val s => if s = "" then none else some s
  | _ => none

/-- One field of the Firestore merge payload: overwrite with a value, or the
`FieldValue.delete()` sentinel removing the field. -/
inductive FieldWrite
  | del
  | set (v : String)
deriving DecidableEq, Repr

/-- The document `updateState` merges (src/unnamed/part_002, lines 482-494):
`id`, `type`, `updatedAt` always; the optional fields only when their
argument is truthy; `deploying`/`error` also on explicit `null`, as a
field deletion. -/
structure StateUpdateJson where
  id : String
  type : String
  updatedAt : Nat
  status : Option String
  deployed : Option String
  output : Option String
  deploying : Option FieldWrite
  error : Option FieldWrite
deriving DecidableEq, Repr

/-- The single Firestore operation `updateState` issues: a document delete,
or a merge-set. -/
inductive DbOp
  | deleteDoc (appId type id : String)
  | setMerge (appId type id : String) (json : StateUpdateJson)
deriving DecidableEq, Repr

/-- The arguments `updateState` destructures. -/
structure UpdateStateArgs where
  appId : String
  type : String
  id : String
  action : Arg String
  status : Arg String
  deploying : Arg String
  deployed : Arg String
  output : Arg String
  error : Arg String
deriving DecidableEq, Repr

/-- src/unnamed/part_002, lines 469-502: the entity update of the execution
state tracker.  `now` stands for `Date.now()`. -/
def updateState (a : UpdateStateArgs) (now : Nat) : DbOp :=
  if a.action = .val "delete" ∧ a.status = .val "deployed" then
    .deleteDoc a.appId a.type a.id
  else
    .setMerge a.appId a.type a.id
      { id := a.id
        type := a.type
        updatedAt := now
        status := argTruthy a.status
        deployed := argTruthy a.deployed
        output := argTruthy a.output
        deploying :=
          match a.deploying with
          | .null => some .del
          | x => (argTruthy x).map .set
        error :=
          match a.error with
          | .null => some .del
          | x => (argTruthy x).map .set }

/-- A stored entity document of one `apps/{app}/{type}` collection. -/
structure EntityDoc where
  id : String
  type : String
  updatedAt : Nat
  status : Option String
  deployed : Option String
  output : Option String
  deploying : Option String
  error : Option String
deriving DecidableEq, Repr

/-- Merge-set semantics of one optional plain field: an absent key leaves
the stored value, a present key overwrites it. -/
def mergeField (old upd : Option String) : Option String :=
  match upd with
  | none => old
  | some v => some v

/-- Merge-set semantics of a field written through `FieldWrite`. -/
def mergeFieldWrite (old : Option String) : Option FieldWrite → Option String
  | none => old
  | some .del => none
  | some (.set v) => some v

/-- The document `{ merge: true }` set produces over an existing document
(or over the empty one when the document did not exist). -/
def applyMerge (doc : EntityDoc) (j : StateUpdateJson) : EntityDoc :=
  { id := j.id
    type := j.type
    updatedAt := j.updatedAt
    status := mergeField doc.status j.status
    deployed := mergeField doc.deployed j.deployed
    output := mergeField doc.output j.output
    deploying := mergeFieldWrite doc.deploying j.deploying
    error := mergeFieldWrite doc.error j.error }

/-- The fate of the targeted document under the issued operation: a delete
removes the record, a merge-set upserts it. -/
def applyDbOp (doc : Option EntityDoc) : DbOp → Option EntityDoc
  | .deleteDoc _ _ _ => none
  | .setMerge _ _ _ j =>
    some (applyMerge (doc.getD ⟨"", "", 0, none, none, none, none, none⟩) j)

/-- The application document fields `updateStatus` may touch, with a few
untouched fields kept to state the frame property. -/
structure AppDoc where
  appId : String
  appShortId : String
  deployedAt : Nat
  status : String
  deployed : Option String
  deploying : List String
deriving DecidableEq, Repr

/-- The plan document fields `updateStatus` may touch. -/
structure PlanDoc where
  planId : String
  deploymentPoint : Option String
  status : String
  error : Option String
deriving DecidableEq, Repr

/-- The `appUpdate` object of src/unnamed/part_002, lines 700-704: `status`
always; `deployed` and `deploying` only when the status is `deployed`. -/
structure AppUpdateObj where
  status : String
  deployed : Option String
  deploying : Option (List String)
deriving DecidableEq, Repr

/-- The `planUpdate` object of lines 706-709: always `{status, error}`. -/
structure PlanUpdateObj where
  status : String
  error : Option String
deriving DecidableEq, Repr

/-- src/unnamed/part_002, lines 696-715: the plan-level status update; the
two batched `update` calls are returned as the objects they write. -/
def updateStatus (appId planId status : String) (error : Option String) :
    AppUpdateObj × PlanUpdateObj :=
  let appUpdate : AppUpdateObj :=
    if status = "deployed" then ⟨status, some planId, some []⟩
    else ⟨status, none, none⟩
  (appUpdate, ⟨status, error⟩)

/-- Firestore `update` semantics on the application document: only the keys
present in the update object change. -/
def applyAppUpdate (doc : AppDoc) (u : AppUpdateObj) : AppDoc :=
  { doc with
    status := u.status
    deployed := match u.deployed with | none => doc.deployed | some p => some p
    deploying := u.deploying.getD doc.deploying }

/-- Firestore `update` semantics on the plan document. -/
def applyPlanUpdate (doc : PlanDoc) (u : PlanUpdateObj) : PlanDoc :=
  { doc with status := u.status, error := u.error }

/-- A non-empty directed path along index edges whose vertices all lie in
`allowed`: `DepPath idx allowed a b` means `b` is reachable from `a` by one
or more `depsOf` edges inside `allowed`. -/
inductive DepPath (idx : Obj (List String)) (allowed : List String) :
    String → String → Prop
  | edge {a b : String} : a ∈ allowed → b ∈ allowed → b ∈ depsOf idx a →
      DepPath idx allowed a b
  | tail {a b c : String} : DepPath idx allowed a b → c ∈ allowed →
      c ∈ depsOf idx b → DepPath idx allowed a c

/-- The dependency subgraph induced on `allowed` has no directed cycle. -/
def AcyclicWithin (idx : Obj (List String)) (allowed : List String) : Prop :=
  ∀ a : String, ¬ DepPath idx allowed a a

theorem depPath_mono {idx : Obj (List String)} {allowed allowed' : List String}
    (hsub : ∀ x, x ∈ allowed' → x ∈ allowed) {a b : String}
    (h : DepPath idx allowed' a b) : DepPath idx allowed a b := by
  induction h with
  | edge ha hb hd => exact .edge (hsub _ ha) (hsub _ hb) hd
  | tail _ hc hd ih => exact .tail ih (hsub _ hc) hd

theorem acyclicWithin_mono {idx : Obj (List String)}
    {allowed allowed' : List String} (hsub : ∀ x, x ∈ allowed' → x ∈ allowed)
    (h : AcyclicWithin idx allowed) : AcyclicWithin idx allowed' :=
  fun a hp => h a (depPath_mono hsub hp)

theorem length_filter_lt_of_mem_false {α : Type} {p : α → Bool} {l : List α}
    {a : α} (ha : a ∈ l) (hp : p a = false) :
    (l.filter p).length < l.length := by
  induction l with
  | nil => cases ha
  | cons x xs ih =>
    rcases List.mem_cons.mp ha with rfl | hx
    · simp [List.filter_cons, hp]
      exact Nat.lt_succ_of_le (List.length_filter_le _ _)
    · by_cases hpx : p x
      · simpa [List.filter_cons, hpx] using Nat.succ_lt_succ (ih hx)
      · simp only [Bool.not_eq_true] at hpx
        simp [List.filter_cons, hpx]
        exact Nat.lt_succ_of_lt (ih hx)

/-- In a finite acyclic subgraph there is a vertex with no outgoing edge
into the subgraph: the progress argument of the bounded-pass scheduler. -/
theorem exists_ready_vertex (idx : Obj (List String)) :
    ∀ (n : Nat) (allowed : List String), allowed.length ≤ n → allowed ≠ [] →
    AcyclicWithin idx allowed →
    ∃ s, s ∈ allowed ∧ ∀ b ∈ depsOf idx s, b ∉ allowed := by
  intro n
  induction n with
  | zero =>
    intro allowed hlen hne _
    cases allowed with
    | nil => exact absurd rfl hne
    | cons x xs => simp at hlen
  | succ n ih =>
    intro allowed hlen hne hacyc
    obtain ⟨a, ha⟩ : ∃ a, a ∈ allowed := by
      cases allowed with
      | nil => exact absurd rfl hne
      | cons x xs => exact ⟨x, by simp⟩
    by_cases hsink : ∀ b ∈ depsOf idx a, b ∉ allowed
    · exact ⟨a, ha, hsink⟩
    · push_neg at hsink
      obtain ⟨b0, hb0d, hb0⟩ := hsink
      classical
      let reach := allowed.filter (fun x => decide (DepPath idx allowed a x))
      have hreach_mem : ∀ x, x ∈ reach ↔ x ∈ allowed ∧ DepPath idx allowed a x := by
        intro x
        constructor
        · intro hx
          obtain ⟨h1, h2⟩ := List.mem_filter.mp hx
          exact ⟨h1, of_decide_eq_true h2⟩
        · intro ⟨h1, h2⟩
          exact List.mem_filter.mpr ⟨h1, decide_eq_true h2⟩
      have hsub : ∀ x, x ∈ reach → x ∈ allowed := fun x hx => ((hreach_mem x).mp hx).1
      have hane : a ∉ reach := by
        intro hx
        exact hacyc a ((hreach_mem a).mp hx).2
      have hb0r : b0 ∈ reach :=
        (hreach_mem b0).mpr ⟨hb0, .edge ha hb0 hb0d⟩
      have hlt : reach.length < allowed.length := by
        exact length_filter_lt_of_mem_false ha
          (decide_eq_false (fun hda => hacyc a hda))
      obtain ⟨s, hs, hsdeps⟩ := ih reach (by omega)
        (List.ne_nil_of_mem hb0r) (acyclicWithin_mono hsub hacyc)
      refine ⟨s, hsub s hs, ?_⟩
      intro b hbd hballowed
      have hpath : DepPath idx allowed a b :=
        .tail ((hreach_mem s).mp hs).2 hballowed hbd
      exact hsdeps b hbd ((hreach_mem b).mpr ⟨hballowed, hpath⟩)

theorem isReady_iff (id : String) (idx : Obj (List String)) (pending : List String) :
    isReady id idx pending = true ↔
      ∀ d ∈ depsOf idx id, d ≠ "" → d ∉ pending := by
  cases h : objLookup idx id with
  | none => simp [isReady, depsOf, h]
  | some deps =>
    simp only [isReady, depsOf, h, Option.getD_some]
    constructor
    · intro hall d hd hne hmem
      have h2 : deps.any
          (fun depId => !(depId = "" : Bool) && pending.contains depId) = false := by
        simpa using hall
      rw [List.any_eq_false] at h2
      exact absurd
        (by show (!(d = "" : Bool) && pending.contains d) = true
            simp [hne, hmem])
        (h2 d hd)
    · intro hall
      simp only [Bool.not_eq_true']
      rw [List.any_eq_false]
      intro d hd
      by_cases hne : d = ""
      · simp [hne]
      · simp [hne, hall d hd hne]

theorem wavesLoop_zero (idx : Obj (List String)) (pending : List String) :
    wavesLoop idx 0 pending = ([], pending) := rfl

theorem wavesLoop_nil (idx : Obj (List String)) (fuel : Nat) :
    wavesLoop idx (fuel + 1) [] = ([], []) := by
  simp [wavesLoop]

theorem wavesLoop_stall (idx : Obj (List String)) (fuel : Nat)
    {pending : List String} (hne : pending ≠ [])
    (hready : pending.filter (fun id => isReady id idx pending) = []) :
    wavesLoop idx (fuel + 1) pending = wavesLoop idx fuel pending := by
  simp [wavesLoop, hne, hready]

theorem wavesLoop_step (idx : Obj (List String)) (fuel : Nat)
    {pending : List String} (hne : pending ≠ [])
    (hready : pending.filter (fun id => isReady id idx pending) ≠ []) :
    wavesLoop idx (fuel + 1) pending =
      (let readyNow := pending.filter (fun id => isReady id idx pending)
       let rest := wavesLoop idx fuel (pending.filter (fun id => !readyNow.contains id))
       (readyNow :: rest.1, rest.2)) := by
  simp [wavesLoop, hne, hready]

theorem wavesLoop_mem_iff (idx : Obj (List String)) :
    ∀ (fuel : Nat) (pending : List String) (a : String),
    (a ∈ (wavesLoop idx fuel pending).1.flatten ∨ a ∈ (wavesLoop idx fuel pending).2) ↔
      a ∈ pending := by
  intro fuel
  induction fuel with
  | zero => intro pending a; simp [wavesLoop_zero]
  | succ fuel ih =>
    intro pending a
    by_cases hne : pending = []
    · subst hne; simp [wavesLoop_nil]
    · by_cases hready : pending.filter (fun id => isReady id idx pending) = []
      · rw [wavesLoop_stall idx fuel hne hready]
        exact ih pending a
      · rw [wavesLoop_step idx fuel hne hready]
        simp only [List.flatten_cons, List.mem_append]
        constructor
        · intro h
          rcases h with (h | h) | h
          · exact (List.mem_filter.mp h).1
          · have := (ih _ a).mp (Or.inl h)
            exact (List.mem_filter.mp this).1
          · have := (ih _ a).mp (Or.inr h)
            exact (List.mem_filter.mp this).1
        · intro h
          by_cases hr : a ∈ pending.filter (fun id => isReady id idx pending)
          · exact Or.inl (Or.inl hr)
          · have ha' : a ∈ pending.filter
                (fun id => !(pending.filter (fun id => isReady id idx pending)).contains id) := by
              refine List.mem_filter.mpr ⟨h, ?_⟩
              revert hr
              generalize (pending.filter (fun id => isReady id idx pending)) = L
              intro hr
              simpa using hr
            rcases (ih _ a).mpr ha' with h1 | h1
            · exact Or.inl (Or.inr h1)
            · exact Or.inr h1

theorem wavesLoop_sched (idx : Obj (List String)) :
    ∀ (fuel : Nat) (pending : List String) (k : Nat) (w : List String),
    (wavesLoop idx fuel pending).1.get? k = some w →
    ∀ id ∈ w, ∀ d ∈ depsOf idx id, d ≠ "" →
      d ∉ ((wavesLoop idx fuel pending).1.drop k).flatten ∧
      d ∉ (wavesLoop idx fuel pending).2 := by
  intro fuel
  induction fuel with
  | zero => intro pending k w hw; simp [wavesLoop_zero] at hw
  | succ fuel ih =>
    intro pending k w hw
    by_cases hne : pending = []
    · subst hne; simp [wavesLoop_nil] at hw
    · by_cases hready : pending.filter (fun id => isReady id idx pending) = []
      · rw [wavesLoop_stall idx fuel hne hready] at hw ⊢
        exact ih pending k w hw
      · rw [wavesLoop_step idx fuel hne hready] at hw ⊢
        simp only at hw ⊢
        cases k with
        | zero =>
          simp only [List.get?_cons_zero, Option.some_inj] at hw
          subst hw
          intro id hid d hd hdne
          have hmem := List.mem_filter.mp hid
          have hnotpending : d ∉ pending :=
            (isReady_iff id idx pending).mp hmem.2 d hd hdne
          constructor
          · simp only [List.drop_zero, List.flatten_cons, List.mem_append]
            intro hcon
            rcases hcon with hcon | hcon
            · exact hnotpending (List.mem_filter.mp hcon).1
            · have := (wavesLoop_mem_iff idx fuel _ d).mp (Or.inl hcon)
              exact hnotpending (List.mem_filter.mp this).1
          · intro hcon
            have := (wavesLoop_mem_iff idx fuel _ d).mp (Or.inr hcon)
            exact hnotpending (List.mem_filter.mp this).1
        | succ j =>
          simp only [List.get?_cons_succ] at hw
          intro id hid d hd hdne
          have := ih _ j w hw id hid d hd hdne
          simpa using this

theorem wavesLoop_complete (idx : Obj (List String)) :
    ∀ (fuel : Nat) (pending : List String), pending.length ≤ fuel →
    AcyclicWithin idx pending → (wavesLoop idx fuel pending).2 = [] := by
  intro fuel
  induction fuel with
  | zero =>
    intro pending hlen _
    have : pending = [] := List.length_eq_zero.mp (Nat.le_zero.mp hlen)
    subst this
    simp [wavesLoop_zero]
  | succ fuel ih =>
    intro pending hlen hacyc
    by_cases hne : pending = []
    · subst hne; simp [wavesLoop_nil]
    · obtain ⟨s, hs, hsdeps⟩ :=
        exists_ready_vertex idx pending.length pending le_rfl hne hacyc
      have hsready : isReady s idx pending = true :=
        (isReady_iff s idx pending).mpr (fun d hd _ => hsdeps d hd)
      have hsr : s ∈ pending.filter (fun id => isReady id idx pending) :=
        List.mem_filter.mpr ⟨hs, hsready⟩
      have hready : pending.filter (fun id => isReady id idx pending) ≠ [] :=
        List.ne_nil_of_mem hsr
      rw [wavesLoop_step idx fuel hne hready]
      simp only
      apply ih
      · have hlt : (pending.filter
            (fun id => !(pending.filter (fun id => isReady id idx pending)).contains id)).length
            < pending.length := by
          apply length_filter_lt_of_mem_false hs
          simp [hsr]
        omega
      · exact acyclicWithin_mono (fun x hx => (List.mem_filter.mp hx).1) hacyc

theorem truthyStr_ne_empty {x : Option String} {y : String}
    (h : truthyStr x = some y) : y ≠ "" := by
  cases x with
  | none => simp [truthyStr] at h
  | some s =>
    by_cases hs : s = ""
    · simp [truthyStr, hs] at h
    · simp [truthyStr, hs] at h
      subst h
      exact hs

theorem collectDeps_no_empty :
    ∀ (deps : Obj Dependency) (acc : List String), "" ∉ acc →
    "" ∉ collectDeps deps acc := by
  intro deps
  induction deps with
  | nil => intro acc hacc; simpa [collectDeps] using hacc
  | cons d rest ih =>
    intro acc hacc
    simp only [collectDeps]
    cases h : truthyStr d.2.resourceId with
    | none => exact ih acc hacc
    | some depId =>
      apply ih
      intro hmem
      by_cases hc : acc.contains depId
      · rw [if_pos hc] at hmem
        exact hacc hmem
      · rw [if_neg hc] at hmem
        rcases List.mem_append.mp hmem with h1 | h1
        · exact hacc h1
        · simp only [List.mem_singleton] at h1
          exact truthyStr_ne_empty h h1.symm

theorem lookup_buildDepsIdxAux (l : Obj Resource) (id : String) :
    objLookup (buildDependenciesIndex.buildDepsIdxAux l) id =
      (objLookup l id).map (fun r => collectDeps r.dependencies []) := by
  induction l with
  | nil => rfl
  | cons e rest ih =>
    obtain ⟨k, r⟩ := e
    simp only [buildDependenciesIndex.buildDepsIdxAux, objLookup]
    by_cases h : k = id
    · rw [if_pos h, if_pos h]
      rfl
    · rw [if_neg h, if_neg h]
      exact ih

theorem depsIdx_no_empty (target : Architecture) (id : String) :
    "" ∉ depsOf (buildDependenciesIndex target) id := by
  unfold depsOf buildDependenciesIndex
  rw [lookup_buildDepsIdxAux]
  cases h : objLookup target.resources id with
  | none => simp
  | some r =>
    simpa using collectDeps_no_empty r.dependencies [] (by simp)

/-- `A depends-on B` is present in an architecture: resource `A` exists and
one of its dependency entries carries the truthy resource id `B`. -/
def hasDepEdge (arch : Architecture) (A B : String) : Bool :=
  match objLookup arch.resources A with
  | some r => r.dependencies.any (fun d => truthyStr d.2.resourceId == some B)
  | none => false

theorem objLookup_mem {α : Type} {l : Obj α} {k : String} {v : α}
    (h : objLookup l k = some v) : (k, v) ∈ l := by
  induction l with
  | nil => simp [objLookup] at h
  | cons e rest ih =>
    obtain ⟨k', v'⟩ := e
    simp only [objLookup] at h
    by_cases he : k' = k
    · rw [if_pos he] at h
      subst he
      rw [Option.some_inj] at h
      subst h
      exact List.mem_cons_self _ _
    · rw [if_neg he] at h
      exact List.mem_cons_of_mem _ (ih h)

theorem indexAdd_mem_self (idx : Obj (List String)) (depId rid : String) :
    rid ∈ depsOf (indexAdd idx depId rid) depId := by
  induction idx with
  | nil => simp [indexAdd, depsOf, objLookup]
  | cons e rest ih =>
    obtain ⟨k, l⟩ := e
    simp only [indexAdd]
    by_cases h : k = depId
    · rw [if_pos h]
      simp only [depsOf, objLookup, h, if_pos rfl, Option.getD_some]
      by_cases hc : l.contains rid
      · rw [if_pos hc]
        exact List.elem_iff.mp hc
      · rw [if_neg hc]
        simp
    · rw [if_neg h]
      simp only [depsOf, objLookup]
      rw [if_neg h]
      exact ih

theorem indexAdd_mem_mono {idx : Obj (List String)} {k x : String}
    (depId rid : String) (h : x ∈ depsOf idx k) :
    x ∈ depsOf (indexAdd idx depId rid) k := by
  induction idx with
  | nil => simp [depsOf, objLookup] at h
  | cons e rest ih =>
    obtain ⟨k', l⟩ := e
    simp only [indexAdd]
    by_cases h1 : k' = depId
    · rw [if_pos h1]
      by_cases h2 : k' = k
      · simp only [depsOf, objLookup, if_pos h2, Option.getD_some] at h ⊢
        by_cases hc : l.contains rid
        · rw [if_pos hc]
          exact h
        · rw [if_neg hc]
          exact List.mem_append.mpr (Or.inl h)
      · simp only [depsOf, objLookup, if_neg h2] at h ⊢
        exact h
    · rw [if_neg h1]
      by_cases h2 : k' = k
      · simp only [depsOf, objLookup, if_pos h2, Option.getD_some] at h ⊢
        exact h
      · simp only [depsOf, objLookup, if_neg h2] at h ⊢
        exact ih h

theorem addDependents_mono {rid : String} :
    ∀ (deps : Obj Dependency) {idx : Obj (List String)} {k x : String},
    x ∈ depsOf idx k → x ∈ depsOf (addDependents rid deps idx) k := by
  intro deps
  induction deps with
  | nil => intro idx k x h; simpa [addDependents] using h
  | cons d rest ih =>
    intro idx k x h
    simp only [addDependents]
    cases ht : truthyStr d.2.resourceId with
    | none => exact ih h
    | some depId => exact ih (indexAdd_mem_mono depId rid h)

theorem addDependents_mem {rid B : String} :
    ∀ (deps : Obj Dependency) (idx : Obj (List String)),
    (∃ d ∈ deps, truthyStr d.2.resourceId = some B) →
    rid ∈ depsOf (addDependents rid deps idx) B := by
  intro deps
  induction deps with
  | nil =>
    rintro idx ⟨d, hd, _⟩
    cases hd
  | cons d rest ih =>
    rintro idx ⟨d', hd', he⟩
    rcases List.mem_cons.mp hd' with rfl | hd'
    · simp only [addDependents, he]
      exact addDependents_mono rest (indexAdd_mem_self idx B rid)
    · simp only [addDependents]
      cases ht : truthyStr d.2.resourceId with
      | none => exact ih _ ⟨d', hd', he⟩
      | some depId => exact ih _ ⟨d', hd', he⟩

theorem go_addDependents_mem {A B : String} :
    ∀ (l : Obj Resource) (idx : Obj (List String)),
    ((∃ r, (A, r) ∈ l ∧ ∃ d ∈ r.dependencies, truthyStr d.2.resourceId = some B) ∨
      A ∈ depsOf idx B) →
    A ∈ depsOf (buildDependentsIndexGo l idx) B := by
  intro l
  induction l with
  | nil =>
    rintro idx (⟨r, hr, _⟩ | h)
    · cases hr
    · simpa [buildDependentsIndexGo] using h
  | cons e rest ih =>
    rintro idx (⟨r, hr, hd⟩ | h)
    · rcases List.mem_cons.mp hr with heq | hr'
      · simp only [buildDependentsIndexGo]
        refine ih _ (Or.inr ?_)
        rw [← heq]
        exact addDependents_mem r.dependencies idx hd
      · exact ih _ (Or.inl ⟨r, hr', hd⟩)
    · exact ih _ (Or.inr (addDependents_mono e.2.dependencies h))

theorem hasDepEdge_mem_dependents {state : Architecture} {A B : String}
    (h : hasDepEdge state A B = true) :
    A ∈ depsOf (buildDependentsIndex state) B := by
  unfold hasDepEdge at h
  cases hl : objLookup state.resources A with
  | none => rw [hl] at h; simp at h
  | some r =>
    rw [hl] at h
    obtain ⟨d, hd, he⟩ := List.any_eq_true.mp h
    unfold buildDependentsIndex
    apply go_addDependents_mem
    exact Or.inl ⟨r, objLookup_mem hl, d, hd, by simpa using he⟩

/-- C2: For every target architecture and resource diff whose expanded
pending set induces an acyclic dependency subgraph, `buildResourceDeployWaves`
terminates and returns waves in which, for every scheduled resource id, each
of its dependencies from the target forward index that is also scheduled
appears in a strictly earlier wave, never the same or a later wave.
(Termination is inherent: the model's pass loop is structurally bounded by
the pending count, exactly like the source's `for` loop.) -/
theorem deployWaves_dependencies_strictly_earlier (target : Architecture)
    (diff : DiffObj)
    (hacyc : AcyclicWithin (buildDependenciesIndex target)
      (expandResourceUpdates target diff)) :
    ∃ waves, buildResourceDeployWaves target diff = Except.ok waves ∧
      ∀ (k j : Nat) (wk wj : List String) (a d : String),
        waves.get? k = some wk → a ∈ wk →
        d ∈ depsOf (buildDependenciesIndex target) a →
        waves.get? j = some wj → d ∈ wj → j < k := by
  have hrem : (wavesLoop (buildDependenciesIndex target)
      (expandResourceUpdates target diff).length
      (expandResourceUpdates target diff)).2 = [] :=
    wavesLoop_complete _ _ _ le_rfl hacyc
  refine ⟨(wavesLoop (buildDependenciesIndex target)
      (expandResourceUpdates target diff).length
      (expandResourceUpdates target diff)).1, ?_, ?_⟩
  · simp only [buildResourceDeployWaves]
    rw [hrem]
    rfl
  · intro k j wk wj a d hk ha hd hj hdj
    have hdne : d ≠ "" := fun h => depsIdx_no_empty target a (h ▸ hd)
    have hsched := wavesLoop_sched (buildDependenciesIndex target)
      (expandResourceUpdates target diff).length
      (expandResourceUpdates target diff) k wk hk a ha d hd hdne
    by_contra hjk
    push_neg at hjk
    apply hsched.1
    have hget : ((wavesLoop (buildDependenciesIndex target)
        (expandResourceUpdates target diff).length
        (expandResourceUpdates target diff)).1.drop k).get? (j - k) = some wj := by
      rw [List.get?_drop]
      rwa [Nat.add_sub_cancel' hjk]
    exact List.mem_flatten.mpr ⟨wj, List.mem_iff_get?.mpr ⟨j - k, hget⟩, hdj⟩

/-- The spec scenario used to witness C2: `X` with no dependencies, `Y`
consuming `X`'s output, both newly added. -/
def tgC2 : Architecture :=
  ⟨[], [], [], [], [("X", ⟨none, []⟩), ("Y", ⟨none, [("db", ⟨some "X", true⟩)]⟩)]⟩

def diffC2 : DiffObj := ⟨["X", "Y"], [], []⟩

theorem tgC2_acyclic :
    AcyclicWithin (buildDependenciesIndex tgC2) (expandResourceUpdates tgC2 diffC2) := by
  have hidx : buildDependenciesIndex tgC2 = [("X", []), ("Y", ["X"])] := by decide
  rw [hidx]
  have allDeps : ∀ x y : String,
      y ∈ depsOf [("X", []), ("Y", ["X"])] x → y = "X" := by
    intro x y hy
    simp only [depsOf, objLookup] at hy
    by_cases h1 : ("X" : String) = x
    · rw [if_pos h1] at hy
      simp at hy
    · rw [if_neg h1] at hy
      by_cases h2 : ("Y" : String) = x
      · rw [if_pos h2] at hy
        simpa using hy
      · rw [if_neg h2] at hy
        simp at hy
  have endX : ∀ a b : String,
      DepPath [("X", []), ("Y", ["X"])] (expandResourceUpdates tgC2 diffC2) a b →
      b = "X" := by
    intro a b hp
    induction hp with
    | edge _ _ hd => exact allDeps _ _ hd
    | tail _ _ hd _ => exact allDeps _ _ hd
  have noFromX : ∀ a b : String,
      DepPath [("X", []), ("Y", ["X"])] (expandResourceUpdates tgC2 diffC2) a b →
      a ≠ "X" := by
    intro a b hp
    induction hp with
    | edge _ _ hd =>
      intro haX
      subst haX
      have hb := allDeps _ _ hd
      subst hb
      simp [depsOf, objLookup] at hd
    | tail _ _ _ ih => exact ih
  intro a hp
  exact noFromX a a hp (endX a a hp)

theorem deployWaves_dependencies_strictly_earlier_witness :
    AcyclicWithin (buildDependenciesIndex tgC2) (expandResourceUpdates tgC2 diffC2) ∧
    ∃ waves, buildResourceDeployWaves tgC2 diffC2 = Except.ok waves ∧
      ∀ (k j : Nat) (wk wj : List String) (a d : String),
        waves.get? k = some wk → a ∈ wk →
        d ∈ depsOf (buildDependenciesIndex tgC2) a →
        waves.get? j = some wj → d ∈ wj → j < k :=
  ⟨tgC2_acyclic, deployWaves_dependencies_strictly_earlier tgC2 diffC2 tgC2_acyclic⟩

/-- A fuel-indexed restatement of `expandLoop`, used only to evaluate the
model on concrete inputs (a well-founded recursion does not reduce inside
the kernel).  `expandLoopF_eq_expandLoop` proves it agrees with `expandLoop`
whenever the fuel exceeds the loop's termination measure. -/
def expandLoopF (m : Obj (List String)) :
    Nat → List String → List String → List String
  | 0, toHandle, _ => toHandle
  | _ + 1, toHandle, [] => toHandle
  | fuel + 1, toHandle, current :: stack =>
    let p := addChildren toHandle stack (childrenOf m current)
    expandLoopF m fuel p.1 p.2

theorem expandLoopF_eq_expandLoop (m : Obj (List String)) :
    ∀ (n : Nat) (toHandle stack : List String),
    2 * missingCount (mapVals m) toHandle + stack.length < n →
    expandLoopF m n toHandle stack = expandLoop m toHandle stack := by
  intro n
  induction n with
  | zero => intro t s h; omega
  | succ n ih =>
    intro t s h
    cases s with
    | nil => simp [expandLoopF, expandLoop]
    | cons current stack =>
      simp only [expandLoopF, expandLoop]
      apply ih
      have h1 := @addChildren_measure (mapVals m) (childrenOf m current)
        t stack (childrenOf_sub_mapVals m current)
      have h2 := @addChildren_missing_le (mapVals m) (childrenOf m current)
        t stack
      simp only [List.length_cons] at h
      omega

/-- `expandResourceUpdates` through the fueled loop, for concrete evaluation. -/
def expandResourceUpdatesF (target : Architecture) (diffResources : DiffObj) :
    List String :=
  let toHandle := (diffResources.added ++ diffResources.changed).foldl setAdd []
  let m := expDependentsMap target
  expandLoopF m (2 * missingCount (mapVals m) toHandle + toHandle.reverse.length + 1)
    toHandle toHandle.reverse

theorem expandResourceUpdates_eq_F (target : Architecture) (diffResources : DiffObj) :
    expandResourceUpdates target diffResources =
      expandResourceUpdatesF target diffResources := by
  unfold expandResourceUpdates expandResourceUpdatesF
  exact (expandLoopF_eq_expandLoop _ _ _ _ (by omega)).symm

/-- The index of the first wave containing an id. -/
def waveIdx (waves : List (List String)) (id : String) : Option Nat :=
  waves.findIdx? (fun w => w.contains id)

/-- The current state refuting C3 as stated: the resource keyed by the empty
string depends on `B`, both are removed.  The JS truthiness test
`depId && resourceUpdates.includes(depId)` of `isReady` skips the empty
dependent id, so `B` is destroyed in the same first wave as its dependent. -/
def stC3 : Architecture :=
  ⟨[], [], [], [],
    [("", ⟨none, [("d", ⟨some "B", false⟩)]⟩), ("B", ⟨none, []⟩)]⟩

def diffC3 : DiffObj := getDiffObj stC3.resources ([] : Obj Resource)

/-- C3 counterexample: in `stC3` the edge `"" depends-on "B"` is present,
both ids are in the removed set, yet both land in wave 0 — the dependent's
wave index is not strictly smaller than its dependency's. -/
theorem destroyWaves_empty_id_same_wave_counterexample :
    hasDepEdge stC3 "" "B" = true ∧
    "" ∈ diffC3.removed ∧ "B" ∈ diffC3.removed ∧
    buildResourceDestroyWaves stC3 diffC3 = Except.ok [["", "B"]] ∧
    waveIdx [["", "B"]] "" = some 0 ∧
    waveIdx [["", "B"]] "B" = some 0 :=
  ⟨rfl, by decide, by decide, rfl, rfl, rfl⟩

/-- C3 amended: for every `A depends-on B` edge of the current state with a
NON-EMPTY dependent id `A`, when both `A` and `B` are in the removed set and
`buildResourceDestroyWaves` returns waves, `A`'s wave strictly precedes
`B`'s.  (The restriction `A ≠ ""` is forced by the counterexample: the JS
truthiness test in `isReady` ignores an empty-string dependent.) -/
theorem destroyWaves_dependents_destroyed_first (state : Architecture)
    (diff : DiffObj) (waves : List (List String)) (A B : String)
    (hok : buildResourceDestroyWaves state diff = Except.ok waves)
    (hA : A ≠ "")
    (hedge : hasDepEdge state A B = true)
    (hAr : A ∈ diff.removed) (hBr : B ∈ diff.removed) :
    ∃ (i j : Nat) (wi wj : List String),
      waves.get? i = some wi ∧ A ∈ wi ∧
      waves.get? j = some wj ∧ B ∈ wj ∧ i < j := by
  simp only [buildResourceDestroyWaves] at hok
  by_cases hrem : (wavesLoop (buildDependentsIndex state) diff.removed.length
      diff.removed).2.isEmpty
  · rw [if_pos hrem] at hok
    have hrem' : (wavesLoop (buildDependentsIndex state) diff.removed.length
        diff.removed).2 = [] := List.isEmpty_iff.mp hrem
    have hwaves : (wavesLoop (buildDependentsIndex state) diff.removed.length
        diff.removed).1 = waves := by
      simpa using hok
    have memA : A ∈ waves.flatten := by
      rcases (wavesLoop_mem_iff (buildDependentsIndex state)
          diff.removed.length diff.removed A).mpr hAr with h | h
      · rwa [hwaves] at h
      · rw [hrem'] at h
        cases h
    have memB : B ∈ waves.flatten := by
      rcases (wavesLoop_mem_iff (buildDependentsIndex state)
          diff.removed.length diff.removed B).mpr hBr with h | h
      · rwa [hwaves] at h
      · rw [hrem'] at h
        cases h
    obtain ⟨wi, hwi, hAwi⟩ := List.mem_flatten.mp memA
    obtain ⟨wj, hwj, hBwj⟩ := List.mem_flatten.mp memB
    obtain ⟨i, hi⟩ := List.mem_iff_get?.mp hwi
    obtain ⟨j, hj⟩ := List.mem_iff_get?.mp hwj
    refine ⟨i, j, wi, wj, hi, hAwi, hj, hBwj, ?_⟩
    have hAd : A ∈ depsOf (buildDependentsIndex state) B :=
      hasDepEdge_mem_dependents hedge
    have hsched := wavesLoop_sched (buildDependentsIndex state)
      diff.removed.length diff.removed j wj (by rw [hwaves]; exact hj)
      B hBwj A hAd hA
    by_contra hij
    push_neg at hij
    apply hsched.1
    rw [hwaves]
    have hget : (waves.drop j).get? (i - j) = some wi := by
      rw [List.get?_drop]
      rwa [Nat.add_sub_cancel' hij]
    exact List.mem_flatten.mpr ⟨wi, List.mem_iff_get?.mpr ⟨i - j, hget⟩, hAwi⟩
  · rw [if_neg hrem] at hok
    cases hok

/-- The witness state for the amended C3: `Y` depends on `X`, both removed. -/
def stC3w : Architecture :=
  ⟨[], [], [], [], [("X", ⟨none, []⟩), ("Y", ⟨none, [("d", ⟨some "X", true⟩)]⟩)]⟩

def diffC3w : DiffObj := ⟨[], ["X", "Y"], []⟩

theorem destroyWaves_dependents_destroyed_first_witness :
    buildResourceDestroyWaves stC3w diffC3w = Except.ok [["Y"], ["X"]] ∧
    ∃ (i j : Nat) (wi wj : List String),
      [["Y"], ["X"]].get? i = some wi ∧ "Y" ∈ wi ∧
      [["Y"], ["X"]].get? j = some wj ∧ "X" ∈ wj ∧ i < j :=
  ⟨rfl,
    destroyWaves_dependents_destroyed_first stC3w diffC3w [["Y"], ["X"]] "Y" "X"
      rfl (by decide) rfl (by decide) (by decide)⟩

/-- The two-resource cycle of the spec's scenario: `A` and `B` each consume
the other's output, both newly added. -/
def tgC1 : Architecture :=
  ⟨[], [], [], [],
    [("A", ⟨none, [("d", ⟨some "B", true⟩)]⟩),
     ("B", ⟨none, [("d", ⟨some "A", true⟩)]⟩)]⟩

def diffC1 : DiffObj := ⟨["A", "B"], [], []⟩

/-- C1 (code bug): on a dependency cycle confined to the pending set the
deploy-side wave builder does throw synchronously and returns no waves, but
the thrown error is `ReferenceError: resourceDeletes is not defined` —
line 486 of src/unnamed/part_001 interpolates a variable of the OTHER wave
builder — not the documented cycle `Error`; and the destroy-side cycle
error reports only the count of the still-pending resources, never the
identifier set the spec promises. -/
theorem deployWaves_cycle_raises_reference_error :
    buildResourceDeployWaves tgC1 diffC1 =
      Except.error (JsError.referenceError "resourceDeletes") ∧
    buildResourceDestroyWaves tgC1 ⟨[], ["A", "B"], []⟩ =
      Except.error (JsError.errorMsg
        ("Max passes reached (2) with 2 resources still pending deletion." ++
         " Possible dependency cycle.")) := by
  constructor
  · have hexp : expandResourceUpdates tgC1 diffC1 = ["A", "B"] := by
      rw [expandResourceUpdates_eq_F]
      rfl
    simp only [buildResourceDeployWaves, hexp]
    rfl
  · rfl

/-- The architecture refuting C4: `A`'s only dependency entry points at `B`
with the output flag FALSE. -/
def tgC4 : Architecture :=
  ⟨[], [], [], [],
    [("B", ⟨none, []⟩), ("A", ⟨none, [("d", ⟨some "B", false⟩)]⟩)]⟩

def diffC4 : DiffObj := ⟨["A", "B"], [], []⟩

/-- C4 counterexample: the `output: false` edge `A → B` enters both the
forward and the reverse index, and it does impose an ordering constraint in
wave computation — `A` is pushed to the wave after `B` instead of sharing
wave 0. -/
theorem output_flag_ignored_by_indexes_counterexample :
    objLookup tgC4.resources "A" =
      some ⟨none, [("d", ⟨some "B", false⟩)]⟩ ∧
    depsOf (buildDependenciesIndex tgC4) "A" = ["B"] ∧
    depsOf (buildDependentsIndex tgC4) "B" = ["A"] ∧
    buildResourceDeployWaves tgC4 diffC4 = Except.ok [["B"], ["A"]] := by
  refine ⟨rfl, rfl, rfl, ?_⟩
  have hexp : expandResourceUpdates tgC4 diffC4 = ["A", "B"] := by
    rw [expandResourceUpdates_eq_F]
    rfl
  simp only [buildResourceDeployWaves, hexp]
  rfl

/-- An architecture with every dependency entry's `output` flag set to `b`;
the two index builders cannot tell it from the original. -/
def setOutputs (b : Bool) (arch : Architecture) : Architecture :=
  { arch with
    resources := arch.resources.map (fun e =>
      (e.1, { service := e.2.service, dependencies := e.2.dependencies.map (fun d => (d.1, { resourceId := d.2.resourceId, output := b })) })) }

/-- An architecture keeping only the dependency entries with a truthy
`output` flag and a truthy `resourceId`; the transitive-dependents
expansion cannot tell it from the original. -/
def keepOutputEdges (arch : Architecture) : Architecture :=
  { arch with
    resources := arch.resources.map (fun e =>
      (e.1, { service := e.2.service, dependencies := e.2.dependencies.filter (fun d => d.2.output && (truthyStr d.2.resourceId).isSome) })) }

theorem expAddResource_filter (rid : String) :
    ∀ (deps : Obj Dependency) (m : Obj (List String)),
    expAddResource rid
        (deps.filter (fun d => d.2.output && (truthyStr d.2.resourceId).isSome)) m =
      expAddResource rid deps m := by
  intro deps
  induction deps with
  | nil => intro m; rfl
  | cons d rest ih =>
    intro m
    by_cases ho : d.2.output
    · cases ht : truthyStr d.2.resourceId with
      | none =>
        have hfil : (d :: rest).filter
            (fun d => d.2.output && (truthyStr d.2.resourceId).isSome) =
            rest.filter (fun d => d.2.output && (truthyStr d.2.resourceId).isSome) := by
          simp [List.filter_cons, ht]
        rw [hfil, ih]
        simp [expAddResource, ho, ht]
      | some depId =>
        have hfil : (d :: rest).filter
            (fun d => d.2.output && (truthyStr d.2.resourceId).isSome) =
            d :: rest.filter (fun d => d.2.output && (truthyStr d.2.resourceId).isSome) := by
          simp [List.filter_cons, ht, ho]
        rw [hfil]
        simp only [expAddResource]
        rw [ih]
    · simp only [Bool.not_eq_true] at ho
      have hfil : (d :: rest).filter
          (fun d => d.2.output && (truthyStr d.2.resourceId).isSome) =
          rest.filter (fun d => d.2.output && (truthyStr d.2.resourceId).isSome) := by
        simp [List.filter_cons, ho]
      rw [hfil, ih]
      simp [expAddResource, ho]

theorem expDependentsMapGo_filter :
    ∀ (l : Obj Resource) (m : Obj (List String)),
    expDependentsMapGo (l.map (fun e => (e.1, { service := e.2.service, dependencies := e.2.dependencies.filter (fun d => d.2.output && (truthyStr d.2.resourceId).isSome) }))) m = expDependentsMapGo l m := by
  intro l
  induction l with
  | nil => intro m; rfl
  | cons e rest ih =>
    intro m
    simp only [List.map_cons, expDependentsMapGo]
    rw [expAddResource_filter, ih]

theorem expDependentsMap_keepOutputEdges (arch : Architecture) :
    expDependentsMap (keepOutputEdges arch) = expDependentsMap arch := by
  unfold expDependentsMap keepOutputEdges
  exact expDependentsMapGo_filter arch.resources []

theorem expandResourceUpdates_keepOutputEdges (arch : Architecture) (diff : DiffObj) :
    expandResourceUpdates (keepOutputEdges arch) diff =
      expandResourceUpdates arch diff := by
  unfold expandResourceUpdates
  rw [expDependentsMap_keepOutputEdges]

theorem collectDeps_setOutputs (b : Bool) :
    ∀ (deps : Obj Dependency) (acc : List String),
    collectDeps (deps.map (fun d => (d.1, { d.2 with output := b }))) acc =
      collectDeps deps acc := by
  intro deps
  induction deps with
  | nil => intro acc; rfl
  | cons d rest ih =>
    intro acc
    simp only [List.map_cons, collectDeps]
    cases ht : truthyStr d.2.resourceId with
    | none => exact ih acc
    | some depId => exact ih _

theorem buildDependenciesIndex_setOutputs (b : Bool) (arch : Architecture) :
    buildDependenciesIndex (setOutputs b arch) = buildDependenciesIndex arch := by
  unfold buildDependenciesIndex setOutputs
  simp only
  generalize arch.resources = l
  induction l with
  | nil => rfl
  | cons e rest ih =>
    simp only [List.map_cons, buildDependenciesIndex.buildDepsIdxAux]
    rw [collectDeps_setOutputs, ih]

theorem addDependents_setOutputs (b : Bool) (rid : String) :
    ∀ (deps : Obj Dependency) (idx : Obj (List String)),
    addDependents rid (deps.map (fun d => (d.1, { d.2 with output := b }))) idx =
      addDependents rid deps idx := by
  intro deps
  induction deps with
  | nil => intro idx; rfl
  | cons d rest ih =>
    intro idx
    simp only [List.map_cons, addDependents]
    cases ht : truthyStr d.2.resourceId with
    | none => exact ih idx
    | some depId => exact ih _

theorem buildDependentsIndexGo_setOutputs (b : Bool) :
    ∀ (l : Obj Resource) (idx : Obj (List String)),
    buildDependentsIndexGo (l.map (fun e => (e.1, { service := e.2.service, dependencies := e.2.dependencies.map (fun d => (d.1, { resourceId := d.2.resourceId, output := b })) }))) idx = buildDependentsIndexGo l idx := by
  intro l
  induction l with
  | nil => intro idx; rfl
  | cons e rest ih =>
    intro idx
    simp only [List.map_cons, buildDependentsIndexGo]
    rw [addDependents_setOutputs, ih]

theorem buildDependentsIndex_setOutputs (b : Bool) (arch : Architecture) :
    buildDependentsIndex (setOutputs b arch) = buildDependentsIndex arch := by
  unfold buildDependentsIndex setOutputs
  exact buildDependentsIndexGo_setOutputs b arch.resources []

/-- C4 amended: the `output` flag restricts ONLY the transitive-dependents
expansion — dropping every non-output or id-less entry leaves the expansion
unchanged — while the forward index (create/update readiness) and the
reverse index (delete readiness) ignore the flag entirely: rewriting every
flag to an arbitrary value leaves both indexes unchanged, so an edge with
`output: false` constrains wave ordering exactly like an `output: true`
edge. -/
theorem output_flag_only_restricts_expansion (b : Bool) (arch : Architecture)
    (diff : DiffObj) :
    expandResourceUpdates (keepOutputEdges arch) diff =
      expandResourceUpdates arch diff ∧
    buildDependenciesIndex (setOutputs b arch) = buildDependenciesIndex arch ∧
    buildDependentsIndex (setOutputs b arch) = buildDependentsIndex arch :=
  ⟨expandResourceUpdates_keepOutputEdges arch diff,
   buildDependenciesIndex_setOutputs b arch,
   buildDependentsIndex_setOutputs b arch⟩

/-- C6: For every pair of key-value mappings, `getDiffObj`'s three sets
partition correctly: added and removed are disjoint, changed is contained
in the common key set, and every key of `next` in neither added nor changed
maps to a value deep-structurally equal to its `prev` counterpart. -/
theorem getDiffObj_partition {α : Type} [DecidableEq α] (prev next : Obj α) :
    (∀ k, k ∈ (getDiffObj prev next).added → k ∉ (getDiffObj prev next).removed) ∧
    (∀ k, k ∈ (getDiffObj prev next).changed →
      k ∈ objKeys prev ∧ k ∈ objKeys next) ∧
    (∀ k, k ∈ objKeys next → k ∉ (getDiffObj prev next).added →
      k ∉ (getDiffObj prev next).changed →
      objLookup prev k = objLookup next k) := by
  refine ⟨?_, ?_, ?_⟩
  · intro k hadd hrem
    obtain ⟨_, h2⟩ := List.mem_filter.mp hadd
    obtain ⟨h3, _⟩ := List.mem_filter.mp hrem
    simp at h2
    exact h2 h3
  · intro k hch
    obtain ⟨hcom, _⟩ := List.mem_filter.mp hch
    obtain ⟨h1, h2⟩ := List.mem_filter.mp hcom
    exact ⟨by simpa using h2, h1⟩
  · intro k hnext hadd hch
    have hprev : k ∈ objKeys prev := by
      by_contra hk
      apply hadd
      refine List.mem_filter.mpr ⟨hnext, ?_⟩
      simpa using hk
    have hcom : k ∈ (objKeys next).filter (fun k => (objKeys prev).contains k) :=
      List.mem_filter.mpr ⟨hnext, by simpa using hprev⟩
    by_contra hne
    apply hch
    refine List.mem_filter.mpr ⟨hcom, ?_⟩
    simpa using hne

/-- C7: a report for a `delete` step reaching terminal success
(`status === 'deployed'`) issues a document deletion — never a merge upsert
— and applying the issued operation removes the entity record entirely. -/
theorem updateState_delete_success_removes_record (a : UpdateStateArgs)
    (now : Nat) (doc : Option EntityDoc)
    (hdel : a.action = Arg.val "delete") (hst : a.status = Arg.val "deployed") :
    updateState a now = DbOp.deleteDoc a.appId a.type a.id ∧
    applyDbOp doc (updateState a now) = none := by
  have h : updateState a now = DbOp.deleteDoc a.appId a.type a.id := by
    unfold updateState
    rw [if_pos ⟨hdel, hst⟩]
  refine ⟨h, ?_⟩
  rw [h]
  rfl

def aC7 : UpdateStateArgs :=
  ⟨"org/app", "resources", "r1", .val "delete", .val "deployed",
    .absent, .absent, .absent, .absent⟩

def docC7 : EntityDoc :=
  ⟨"r1", "resources", 3, some "deployed", some "def", some "out", none, none⟩

theorem updateState_delete_success_removes_record_witness :
    updateState aC7 7 = DbOp.deleteDoc "org/app" "resources" "r1" ∧
    applyDbOp (some docC7) (updateState aC7 7) = none :=
  updateState_delete_success_removes_record aC7 7 (some docC7) rfl rfl

/-- C8: on the merge path of `updateState` (any report that is not a
successful delete), an explicit `null` for `error` clears a previously
recorded error while omitting the field leaves it untouched, and the same
explicit-null-to-clear / omitted-means-untouched rule governs the pending
`deploying` marker. -/
theorem updateState_null_clears_omitted_preserves (a : UpdateStateArgs)
    (now : Nat) (doc : EntityDoc)
    (hnotdel : ¬(a.action = Arg.val "delete" ∧ a.status = Arg.val "deployed")) :
    ∃ d', applyDbOp (some doc) (updateState a now) = some d' ∧
      (a.error = Arg.null → d'.error = none) ∧
      (a.error = Arg.absent → d'.error = doc.error) ∧
      (a.deploying = Arg.null → d'.deploying = none) ∧
      (a.deploying = Arg.absent → d'.deploying = doc.deploying) := by
  unfold updateState
  rw [if_neg hnotdel]
  refine ⟨_, rfl, ?_, ?_, ?_, ?_⟩
  · intro he
    simp [applyMerge, mergeFieldWrite, he]
  · intro he
    simp [applyMerge, mergeFieldWrite, he, argTruthy]
  · intro hd
    simp [applyMerge, mergeFieldWrite, hd]
  · intro hd
    simp [applyMerge, mergeFieldWrite, hd, argTruthy]

def aC8 : UpdateStateArgs :=
  ⟨"org/app", "resources", "r1", .val "update", .val "deployed",
    .absent, .val "newdef", .val "out2", .null⟩

def docC8 : EntityDoc :=
  ⟨"r1", "resources", 3, some "deploying", some "def", some "out",
    some "p9", some "boom"⟩

theorem updateState_null_clears_omitted_preserves_witness :
    ¬(aC8.action = Arg.val "delete" ∧ aC8.status = Arg.val "deployed") ∧
    ∃ d', applyDbOp (some docC8) (updateState aC8 5) = some d' ∧
      (aC8.error = Arg.null → d'.error = none) ∧
      (aC8.error = Arg.absent → d'.error = docC8.error) ∧
      (aC8.deploying = Arg.null → d'.deploying = none) ∧
      (aC8.deploying = Arg.absent → d'.deploying = docC8.deploying) :=
  ⟨by decide, updateState_null_clears_omitted_preserves aC8 5 docC8 (by decide)⟩

/-- C10: `updateStatus` always writes the plan record's `status` and `error`
and the application record's `status`; the application's deployed-plan
pointer is set (to the plan id) and its deploying list cleared exactly when
the supplied status is `deployed` — for any other status both are left
unchanged, and no other application field is ever touched. -/
theorem updateStatus_frame (appId planId status : String) (error : Option String)
    (appDoc : AppDoc) (planDoc : PlanDoc) :
    applyPlanUpdate planDoc (updateStatus appId planId status error).2 =
      { planDoc with status := status, error := error } ∧
    applyAppUpdate appDoc (updateStatus appId planId status error).1 =
      (if status = "deployed" then
        { appDoc with status := status, deployed := some planId, deploying := [] }
      else { appDoc with status := status }) := by
  refine ⟨rfl, ?_⟩
  by_cases h : status = "deployed"
  · simp [updateStatus, applyAppUpdate, h]
  · simp [updateStatus, applyAppUpdate, h]

theorem getSteps_ok_shape {state target : Architecture} {plan : List (List Step)}
    (h : getSteps state target = Except.ok plan) :
    ∃ dw tw,
      buildResourceDeployWaves target (getDiffs state target).diffResources =
        Except.ok dw ∧
      buildResourceDestroyWaves state (getDiffs state target).diffResources =
        Except.ok tw ∧
      plan = assemblePlan state target dw tw := by
  simp only [getSteps] at h
  cases hdep : buildResourceDeployWaves target (getDiffs state target).diffResources with
  | error e =>
    rw [hdep] at h
    exact Except.noConfusion h
  | ok dw =>
    rw [hdep] at h
    cases hdest : buildResourceDestroyWaves state (getDiffs state target).diffResources with
    | error e =>
      rw [hdest] at h
      exact Except.noConfusion h
    | ok tw =>
      rw [hdest] at h
      exact ⟨dw, tw, rfl, rfl, (Except.ok.inj h).symm⟩

theorem mapWithCounter_mem {mk : Nat → String → Step} :
    ∀ (ids : List String) (c : Nat) {s : Step},
    s ∈ (mapWithCounter mk c ids).1 → ∃ c' id', s = mk c' id' := by
  intro ids
  induction ids with
  | nil => intro c s hs; simp [mapWithCounter] at hs
  | cons id rest ih =>
    intro c s hs
    simp only [mapWithCounter] at hs
    rcases List.mem_cons.mp hs with rfl | hs
    · exact ⟨c, id, rfl⟩
    · exact ih (c + 1) hs

theorem pushParallelW_mem {mk : Nat → String → Step} {ids : List String} {c : Nat}
    {w : List Step} (hw : w ∈ (pushParallelW ids mk c).1) :
    ∀ s ∈ w, ∃ c' id', s = mk c' id' := by
  unfold pushParallelW at hw
  by_cases h : ids.isEmpty
  · rw [if_pos h] at hw
    cases hw
  · rw [if_neg h] at hw
    simp only [List.mem_singleton] at hw
    subst hw
    intro s hs
    exact mapWithCounter_mem ids c hs

theorem pushSequentialW_mem {mk : Nat → String → Step} :
    ∀ (ids : List String) (c : Nat) {w : List Step},
    w ∈ (pushSequentialW mk c ids).1 → ∃ c' id', w = [mk c' id'] := by
  intro ids
  induction ids with
  | nil => intro c w hw; simp [pushSequentialW] at hw
  | cons id rest ih =>
    intro c w hw
    simp only [pushSequentialW] at hw
    rcases List.mem_cons.mp hw with rfl | hw
    · exact ⟨c, id, rfl⟩
    · exact ih (c + 1) hw

theorem mapWavesW_mem {mk : Nat → String → Step} :
    ∀ (ws : List (List String)) (c : Nat) {w : List Step},
    w ∈ (mapWavesW mk c ws).1 → ∀ s ∈ w, ∃ c' id', s = mk c' id' := by
  intro ws
  induction ws with
  | nil => intro c w hw; simp [mapWavesW] at hw
  | cons w0 rest ih =>
    intro c w hw
    simp only [mapWavesW] at hw
    rcases List.mem_cons.mp hw with rfl | hw
    · intro s hs
      exact mapWithCounter_mem w0 c hs
    · exact ih _ hw

theorem assemblePlan_singleton_of_create_ids_accounts
    (state target : Architecture) (dw tw : List (List String))
    {wave : List Step} (hw : wave ∈ assemblePlan state target dw tw)
    {s : Step} (hs : s ∈ wave)
    (htype : s.type = ActionTypes.ids ∨ s.type = ActionTypes.accounts)
    (hact : s.action = Actions.create) :
    wave = [s] := by
  simp only [assemblePlan, List.append_assoc, List.mem_append] at hw
  rcases hw with hw | hw | hw | hw | hw | hw | hw | hw | hw | hw
  · obtain ⟨c', id', rfl⟩ := pushParallelW_mem hw s hs
    rcases htype with h | h <;> exact ActionTypes.noConfusion h
  · obtain ⟨c', id', rfl⟩ := pushParallelW_mem hw s hs
    rcases htype with h | h <;> exact ActionTypes.noConfusion h
  · obtain ⟨c', id', rfl⟩ := pushSequentialW_mem _ _ hw
    rw [List.mem_singleton] at hs
    rw [hs]
  · obtain ⟨c', id', rfl⟩ := pushSequentialW_mem _ _ hw
    rw [List.mem_singleton] at hs
    rw [hs]
  · obtain ⟨c', id', rfl⟩ := mapWavesW_mem _ _ hw s hs
    rcases htype with h | h <;> exact ActionTypes.noConfusion h
  · obtain ⟨c', id', rfl⟩ := mapWavesW_mem _ _ hw s hs
    rcases htype with h | h <;> exact ActionTypes.noConfusion h
  · obtain ⟨c', id', rfl⟩ := pushParallelW_mem hw s hs
    exact Actions.noConfusion hact
  · obtain ⟨c', id', rfl⟩ := pushParallelW_mem hw s hs
    exact Actions.noConfusion hact
  · obtain ⟨c', id', rfl⟩ := pushParallelW_mem hw s hs
    rcases htype with h | h <;> exact ActionTypes.noConfusion h
  · obtain ⟨c', id', rfl⟩ := pushParallelW_mem hw s hs
    rcases htype with h | h <;> exact ActionTypes.noConfusion h

/-- C5: for any plan whose diff contains two or more added ids, or two or
more added accounts, every added id and every added account occupies its own
single-step wave: a plan wave holding a create step of the `ids` or
`accounts` category is exactly that one step. -/
theorem added_ids_accounts_have_singleton_waves (state target : Architecture)
    (plan : List (List Step))
    (hplan : getSteps state target = Except.ok plan)
    (hmulti : 2 ≤ (getDiffs state target).diffIds.added.length ∨
      2 ≤ (getDiffs state target).diffAccounts.added.length)
    (wave : List Step) (s : Step) (hw : wave ∈ plan) (hs : s ∈ wave)
    (htype : s.type = ActionTypes.ids ∨ s.type = ActionTypes.accounts)
    (hact : s.action = Actions.create) :
    wave = [s] := by
  obtain ⟨dw, tw, _, _, hshape⟩ := getSteps_ok_shape hplan
  subst hshape
  exact assemblePlan_singleton_of_create_ids_accounts state target dw tw hw hs htype hact

def emptyArch : Architecture := ⟨[], [], [], [], []⟩

/-- The witness target for C5 and C9: one resource `a`, whose derived module
id `/` joins it in the ids/accounts universe, giving two added ids and two
added accounts. -/
def tgW5 : Architecture := ⟨[], [], [], [], [("a", ⟨none, []⟩)]⟩

def planW5 : List (List Step) :=
  [[⟨"step_0", .ids, .create, "/", .emptyObj⟩],
   [⟨"step_1", .ids, .create, "a", .emptyObj⟩],
   [⟨"step_2", .accounts, .create, "/", .account none⟩],
   [⟨"step_3", .accounts, .create, "a", .account none⟩],
   [⟨"step_4", .resources, .create, "a", .resDef (some ⟨none, []⟩)⟩]]

theorem getSteps_W5_eval : getSteps emptyArch tgW5 = Except.ok planW5 := by
  have hexp : expandResourceUpdates tgW5 (getDiffs emptyArch tgW5).diffResources =
      ["a"] := by
    rw [expandResourceUpdates_eq_F]
    rfl
  have hdep : buildResourceDeployWaves tgW5 (getDiffs emptyArch tgW5).diffResources =
      Except.ok [["a"]] := by
    simp only [buildResourceDeployWaves, hexp]
    rfl
  simp only [getSteps, hdep]
  rfl

theorem added_ids_accounts_have_singleton_waves_witness :
    2 ≤ (getDiffs emptyArch tgW5).diffIds.added.length ∧
    [(⟨"step_0", .ids, .create, "/", .emptyObj⟩ : Step)] =
      [(⟨"step_0", .ids, .create, "/", .emptyObj⟩ : Step)] :=
  ⟨by decide,
    added_ids_accounts_have_singleton_waves emptyArch tgW5 planW5 getSteps_W5_eval
      (Or.inl (by decide))
      [⟨"step_0", .ids, .create, "/", .emptyObj⟩]
      ⟨"step_0", .ids, .create, "/", .emptyObj⟩
      (by decide) (by decide) (Or.inl rfl) rfl⟩

theorem objLookup_eq_none {α : Type} {l : Obj α} {k : String}
    (h : k ∉ objKeys l) : objLookup l k = none := by
  induction l with
  | nil => rfl
  | cons e rest ih =>
    simp only [objKeys, List.map_cons, List.mem_cons] at h
    push_neg at h
    simp only [objLookup]
    rw [if_neg (fun he => h.1 he.symm)]
    exact ih (by simpa [objKeys] using h.2)

theorem accountServiceOf_eq (arch : Architecture) (id : String) :
    accountServiceOf arch id =
      truthyStr ((objLookup arch.resources id).bind Resource.service) := by
  unfold accountServiceOf
  cases objLookup arch.resources id <;> rfl

theorem assemblePlan_account_create_payload (state target : Architecture)
    (dw tw : List (List String)) {wave : List Step}
    (hw : wave ∈ assemblePlan state target dw tw) {s : Step} (hs : s ∈ wave)
    (htype : s.type = ActionTypes.accounts) (hact : s.action = Actions.create) :
    s.data = StepData.account (accountServiceOf target s.id) := by
  simp only [assemblePlan, List.append_assoc, List.mem_append] at hw
  rcases hw with hw | hw | hw | hw | hw | hw | hw | hw | hw | hw
  · obtain ⟨c', id', rfl⟩ := pushParallelW_mem hw s hs
    exact ActionTypes.noConfusion htype
  · obtain ⟨c', id', rfl⟩ := pushParallelW_mem hw s hs
    exact ActionTypes.noConfusion htype
  · obtain ⟨c', id', rfl⟩ := pushSequentialW_mem _ _ hw
    rw [List.mem_singleton] at hs
    subst hs
    exact ActionTypes.noConfusion htype
  · obtain ⟨c', id', rfl⟩ := pushSequentialW_mem _ _ hw
    rw [List.mem_singleton] at hs
    subst hs
    rfl
  · obtain ⟨c', id', rfl⟩ := mapWavesW_mem _ _ hw s hs
    exact ActionTypes.noConfusion htype
  · obtain ⟨c', id', rfl⟩ := mapWavesW_mem _ _ hw s hs
    exact ActionTypes.noConfusion htype
  · obtain ⟨c', id', rfl⟩ := pushParallelW_mem hw s hs
    exact Actions.noConfusion hact
  · obtain ⟨c', id', rfl⟩ := pushParallelW_mem hw s hs
    exact ActionTypes.noConfusion htype
  · obtain ⟨c', id', rfl⟩ := pushParallelW_mem hw s hs
    exact ActionTypes.noConfusion htype
  · obtain ⟨c', id', rfl⟩ := pushParallelW_mem hw s hs
    exact ActionTypes.noConfusion htype

/-- C9 amended: every account-creation step of an assembled plan carries
payload `{service: s}` where `s` is the target resource's `service` field
when the step id is a key of `target.resources` AND that field is a
non-empty value, and `null` otherwise; in particular an account id that is
not a resource key (most derived module paths) always gets `null`.  (The
claim's stronger reading fails: a module path CAN itself be a resource key
— a resource id ending in the separator is its own module path — and an
existing but empty service reference is also collapsed to `null` by the
`|| null` truthiness test.) -/
theorem account_step_service_payload (state target : Architecture)
    (plan : List (List Step)) (hplan : getSteps state target = Except.ok plan)
    (wave : List Step) (s : Step) (hw : wave ∈ plan) (hs : s ∈ wave)
    (htype : s.type = ActionTypes.accounts) (hact : s.action = Actions.create) :
    s.data = StepData.account
      (truthyStr ((objLookup target.resources s.id).bind Resource.service)) ∧
    (s.id ∉ objKeys target.resources → s.data = StepData.account none) := by
  obtain ⟨dw, tw, _, _, hshape⟩ := getSteps_ok_shape hplan
  subst hshape
  have h := assemblePlan_account_create_payload state target dw tw hw hs htype hact
  constructor
  · rw [h, accountServiceOf_eq]
  · intro hnk
    rw [h]
    unfold accountServiceOf
    rw [objLookup_eq_none hnk]

/-- The target refuting C9's module-path part: the resource id `/` is its
own module path (truncating `/` at its last separator keeps `/`), so the
derived account id IS a resource key and its creation step gets that
resource's service, not `null`. -/
def tgC9 : Architecture := ⟨[], [], [], [], [("/", ⟨some "s1", []⟩)]⟩

/-- The target refuting C9's resource-key part: resource `x` exists with an
EMPTY service reference, which `|| null` collapses to `null`. -/
def tgC9b : Architecture := ⟨[], [], [], [], [("x", ⟨some "", []⟩)]⟩

def planC9 : List (List Step) :=
  [[⟨"step_0", .ids, .create, "/", .emptyObj⟩],
   [⟨"step_1", .ids, .create, "/", .emptyObj⟩],
   [⟨"step_2", .accounts, .create, "/", .account (some "s1")⟩],
   [⟨"step_3", .accounts, .create, "/", .account (some "s1")⟩],
   [⟨"step_4", .resources, .create, "/", .resDef (some ⟨some "s1", []⟩)⟩]]

def planC9b : List (List Step) :=
  [[⟨"step_0", .ids, .create, "/", .emptyObj⟩],
   [⟨"step_1", .ids, .create, "x", .emptyObj⟩],
   [⟨"step_2", .accounts, .create, "/", .account none⟩],
   [⟨"step_3", .accounts, .create, "x", .account none⟩],
   [⟨"step_4", .resources, .create, "x", .resDef (some ⟨some "", []⟩)⟩]]

theorem getSteps_C9_eval : getSteps emptyArch tgC9 = Except.ok planC9 := by
  have hexp : expandResourceUpdates tgC9 (getDiffs emptyArch tgC9).diffResources =
      ["/"] := by
    rw [expandResourceUpdates_eq_F]
    rfl
  have hdep : buildResourceDeployWaves tgC9 (getDiffs emptyArch tgC9).diffResources =
      Except.ok [["/"]] := by
    simp only [buildResourceDeployWaves, hexp]
    rfl
  simp only [getSteps, hdep]
  rfl

theorem getSteps_C9b_eval : getSteps emptyArch tgC9b = Except.ok planC9b := by
  have hexp : expandResourceUpdates tgC9b (getDiffs emptyArch tgC9b).diffResources =
      ["x"] := by
    rw [expandResourceUpdates_eq_F]
    rfl
  have hdep : buildResourceDeployWaves tgC9b (getDiffs emptyArch tgC9b).diffResources =
      Except.ok [["x"]] := by
    simp only [buildResourceDeployWaves, hexp]
    rfl
  simp only [getSteps, hdep]
  rfl

def sC9 : Step := ⟨"step_2", .accounts, .create, "/", .account (some "s1")⟩

def sC9b : Step := ⟨"step_3", .accounts, .create, "x", .account none⟩

/-- C9 counterexample: in `tgC9` the account id `/` is a module path derived
by truncating the resource id `/` at its last separator, yet its creation
step carries `{service: "s1"}`, not `null` (the module path IS a resource
key, contradicting the claim's parenthetical); and in `tgC9b` the account id
`x` is a resource key whose service reference is the empty string, yet the
step carries `null`, not that reference. -/
theorem account_step_service_payload_counterexample :
    getSteps emptyArch tgC9 = Except.ok planC9 ∧
    modulePathOf "/" = "/" ∧
    "/" ∈ targetModuleIds tgC9 ∧
    sC9 ∈ planC9.flatten ∧
    sC9.type = ActionTypes.accounts ∧
    sC9.action = Actions.create ∧
    sC9.id = "/" ∧
    sC9.data = StepData.account (some "s1") ∧
    sC9.data ≠ StepData.account none ∧
    getSteps emptyArch tgC9b = Except.ok planC9b ∧
    sC9b ∈ planC9b.flatten ∧
    sC9b.type = ActionTypes.accounts ∧
    sC9b.action = Actions.create ∧
    sC9b.id = "x" ∧
    objLookup tgC9b.resources "x" = some ⟨some "", []⟩ ∧
    sC9b.data = StepData.account none ∧
    sC9b.data ≠ StepData.account (some "") :=
  ⟨getSteps_C9_eval, rfl, by decide, by decide, rfl, rfl, rfl, rfl, by decide,
   getSteps_C9b_eval, by decide, rfl, rfl, rfl, rfl, rfl, by decide⟩

def sAcc5 : Step := ⟨"step_2", .accounts, .create, "/", .account none⟩

theorem account_step_service_payload_witness :
    getSteps emptyArch tgW5 = Except.ok planW5 ∧
    sAcc5.data = StepData.account
      (truthyStr ((objLookup tgW5.resources sAcc5.id).bind Resource.service)) ∧
    (sAcc5.id ∉ objKeys tgW5.resources → sAcc5.data = StepData.account none) :=
  ⟨getSteps_W5_eval,
    account_step_service_payload emptyArch tgW5 planW5 getSteps_W5_eval
      [sAcc5] sAcc5 (by decide) (by decide) rfl rfl⟩
